import Mathlib

/-!
Verification of the shesh shell (6z7y/shesh) against its specification.

Strings from the Rust sources are modelled as `List Char`; byte indices of
`char_indices` coincide with character indices on the ASCII operator strings
involved, so positions are counted in characters.  Fallible Rust functions
returning `Result<T, String>` are modelled as `Except String T`.
-/

namespace Shesh

/-- The double-quote character. -/
def dquote : Char := Char.ofNat 34

/-- The single-quote character. -/
def squote : Char := Char.ofNat 39

/-- The backslash character. -/
def bslash : Char := Char.ofNat 92

/-- The comment character. -/
def hashc : Char := Char.ofNat 35

/-- `RedirectType` from src/parse.rs lines 10-19. -/
inductive RedirectType where
  | stdout
  | stdoutAppend
  | stderr
  | stderrAppend
  | both
  | bothAppend
  | stdin
deriving DecidableEq

/-- `Operator` from src/parse.rs lines 22-30. -/
inductive Operator where
  | redirect (k : RedirectType)
  | and
  | or
  | pipe
  | seq
  | background
deriving DecidableEq

/-- `ParsedCommand` from src/parse.rs lines 4-8.  `Single` carries the token
list, `BinaryOp` an operator node. -/
inductive ParsedCommand where
  | single (args : List (List Char))
  | binaryOp (left : ParsedCommand) (op : Operator) (right : ParsedCommand)
deriving DecidableEq

/-- The fixed operator-priority table `OPERATORS`, src/parse.rs lines 32-45,
in source order. -/
def OPERATORS : List (List Char × Operator) :=
  [ (['&', '>', '>'], .redirect .bothAppend),
    (['&', '>'], .redirect .both),
    (['2', '>', '>'], .redirect .stderrAppend),
    (['2', '>'], .redirect .stderr),
    (['>', '>'], .redirect .stdoutAppend),
    (['>'], .redirect .stdout),
    (['<'], .redirect .stdin),
    ([';'], .seq),
    (['&', '&'], .and),
    (['|', '|'], .or),
    (['|'], .pipe),
    (['&'], .background) ]

/-- `input[i..].starts_with(target)` on character lists. -/
def listStartsWith : List Char → List Char → Bool
  | _, [] => true
  | [], _ :: _ => false
  | c :: cs, d :: ds => c = d && listStartsWith cs ds

/-- Scanning loop of `find_outside_quotes`, src/parse.rs lines 72-91.
`inQuotes` mirrors the `in_quotes : Option<char>` variable; the branch for a
quote character reproduces `in_quotes.take() != Some(c)`: a matching quote
closes the region, any other quote character opens (or re-keys) it. -/
def fowAux (target : List Char) (first : Char) :
    List Char → Option Char → Nat → Option Nat
  | [], _, _ => none
  | c :: rest, inQuotes, i =>
    if c = dquote ∨ c = squote then
      fowAux target first rest (if inQuotes = some c then none else some c) (i + 1)
    else if inQuotes = none ∧ c = first ∧ listStartsWith (c :: rest) target then
      some i
    else
      fowAux target first rest inQuotes (i + 1)

/-- `find_outside_quotes`, src/parse.rs lines 72-91: position of the first
occurrence of `target` outside quoted regions. -/
def find_outside_quotes (input target : List Char) : Option Nat :=
  match target.head? with
  | none => none
  | some first => fowAux target first input none 0

/-- The `find_map` over `OPERATORS` in `parse_syntax`, src/parse.rs lines
55-67: the first operator in table order with any unquoted occurrence,
together with its position. -/
def findFirstOp (input : List Char) : Option (Nat × List Char × Operator) :=
  OPERATORS.findSome? fun p =>
    (find_outside_quotes input p.1).map fun i => (i, p.1, p.2)

/-- State of the `tokenize` loop, src/parse.rs lines 94-133.  The `esc` flag
converts the source's in-loop `chars.next()` after a backslash into a
one-character-at-a-time automaton: `esc = true` means the previous character
was an unconsumed backslash, so the next character is pushed literally. -/
structure TokSt where
  tokens : List (List Char)
  current : List Char
  inSingle : Bool
  inDouble : Bool
  foundComment : Bool
  esc : Bool
deriving DecidableEq

/-- Initial tokenizer state. -/
def tokInit : TokSt := ⟨[], [], false, false, false, false⟩

/-- One character of the `tokenize` loop, src/parse.rs lines 102-126, in the
source's match-arm order: comment skip, pending escape, backslash, double
quote (outside single quotes), single quote (outside double quotes), comment
start, unquoted space, default push. -/
def tokStep (st : TokSt) (c : Char) : TokSt :=
  if st.foundComment = true then st
  else if st.esc = true then { st with current := st.current ++ [c], esc := false }
  else if c = bslash then { st with esc := true }
  else if c = dquote ∧ st.inSingle = false then { st with inDouble := !st.inDouble }
  else if c = squote ∧ st.inDouble = false then { st with inSingle := !st.inSingle }
  else if c = hashc ∧ st.inSingle = false ∧ st.inDouble = false then
    { st with foundComment := true }
  else if c = ' ' ∧ st.inSingle = false ∧ st.inDouble = false then
    { st with
      tokens := if st.current ≠ [] then st.tokens ++ [st.current] else st.tokens,
      current := [] }
  else { st with current := st.current ++ [c] }

/-- `tokenize`, src/parse.rs lines 94-133.  After the loop, the pending token
is emitted only when it is nonempty and no comment was found (line 128). -/
def tokenize (input : List Char) : List (List Char) :=
  let st := input.foldl tokStep tokInit
  st.tokens ++ (if st.current ≠ [] ∧ st.foundComment = false then [st.current] else [])

/-- Recursion of `parse_syntax`, src/parse.rs lines 48-69, with explicit
fuel.  Each recursive call is on a strictly shorter line (the split removes
at least the operator text), so fuel `input.length` always suffices; the
fuel-0 branch is never reached from `parse_syntax`. -/
def parseSyntaxFuel : Nat → List Char → ParsedCommand
  | 0, _ => .single []
  | fuel + 1, input =>
    if OPERATORS.any fun p => input = p.1 then .single []
    else
      match findFirstOp input with
      | some (i, opStr, op) =>
          .binaryOp (parseSyntaxFuel fuel (input.take i)) op
            (parseSyntaxFuel fuel (input.drop (i + opStr.length)))
      | none => .single (tokenize input)

/-- `parse_syntax`, src/parse.rs lines 48-69. -/
def parse_syntax (input : List Char) : ParsedCommand :=
  parseSyntaxFuel input.length input

/-- Rust `str::trim` on character lists (`char::is_whitespace`; on the ASCII
inputs involved `Char.isWhitespace` agrees). -/
def trimChars (s : List Char) : List Char :=
  ((s.dropWhile Char.isWhitespace).reverse.dropWhile Char.isWhitespace).reverse

/-- Rust `str::split(',')` on character lists: splits at every comma,
keeping empty segments (`"".split` yields one empty segment). -/
def splitComma : List Char → List (List Char)
  | [] => [[]]
  | c :: cs =>
    if c = ',' then [] :: splitComma cs
    else
      match splitComma cs with
      | [] => [[c]]
      | s :: ss => (c :: s) :: ss

/-- The alternative list computed at a closing brace, src/b_symbols.rs lines
167-172: every accumulated string is split on commas, the pieces are
trimmed, and empty pieces are dropped. -/
def braceParts (result : List (List Char)) : List (List Char) :=
  ((result.flatMap splitComma).map trimChars).filter fun s => s ≠ []

/-- One character of the `expand_braces` loop, src/b_symbols.rs lines
158-188 (the identical copy lives at src/commands/symbols.rs lines
136-166).  State: the current `result` strings, the saved `stack`, and the
`in_brace` flag.  An opening brace while `in_brace` is already set, and a
closing brace while it is not, fall through to the default arm and are
appended as ordinary characters.  The `stack.pop().unwrap()` cannot fail
because `in_brace` is only ever set together with a push; the empty-stack
branch below is unreachable. -/
def braceStep (st : List (List Char) × List (List (List Char)) × Bool) (c : Char) :
    List (List Char) × List (List (List Char)) × Bool :=
  match st with
  | (result, stack, inBrace) =>
    if c = '{' ∧ inBrace = false then ([[]], result :: stack, true)
    else if c = '}' ∧ inBrace = true then
      match stack with
      | prev :: stack' =>
          (prev.flatMap fun pr => (braceParts result).map fun p => pr ++ p,
            stack', false)
      | [] => (result, [], false)
    else (result.map fun s => s ++ [c], stack, inBrace)

/-- `expand_braces`, src/b_symbols.rs lines 153-190. -/
def expand_braces (input : List Char) : List (List Char) :=
  (input.foldl braceStep ([[]], [], false)).1

/-- The glob language, written from the spec sentence for C7: `GlobLang p n`
holds exactly when `n` can be obtained from `p` by replacing each `*` with
some (possibly empty) run of characters and matching every other character
of `p` literally. -/
inductive GlobLang : List Char → List Char → Prop where
  | nil : GlobLang [] []
  | lit {c : Char} {p n : List Char} : c ≠ '*' → GlobLang p n →
      GlobLang (c :: p) (c :: n)
  | star {p n : List Char} (run : List Char) : GlobLang p n →
      GlobLang ('*' :: p) (run ++ n)

/-- Textbook recursive matcher deciding the glob language; the bridge
between `GlobLang` and the imperative matcher of the source. -/
def globMatch : List Char → List Char → Bool
  | [], [] => true
  | [], _ :: _ => false
  | c :: ps, ns =>
    if c = '*' then
      globMatch ps ns ||
        (match ns with
         | [] => false
         | _ :: ns2 => globMatch (c :: ps) ns2)
    else
      match ns with
      | [] => false
      | n :: ns2 => c = n && globMatch ps ns2
termination_by p n => (p.length, n.length)

/-- The loop of `matches_pattern`, src/b_symbols.rs lines 242-257 (identical
copy at src/commands/symbols.rs lines 194-209), with the four loop
variables `p_idx`, `n_idx`, `star`, `star_match_idx` represented by list
suffixes:
* `ps` is the pattern from `p_idx` on and `ns` the name from `n_idx` on;
* `star = some (t, u)` records a last `*` seen: `t` is the pattern from
  `star_idx + 1` on, and `u` is the run matched literally since then — the
  pattern from `star_idx + 1` up to `p_idx` and the name from
  `star_match_idx` up to `n_idx` are the same character run `u` (literal
  steps require equal characters), so the name from `star_match_idx` on is
  `u ++ ns`, and the backtracking step `star_match_idx += 1; n_idx =
  star_match_idx; p_idx = star_idx + 1` becomes
  `matchLoop t (List.tail (u ++ ns)) (some (t, []))`.
The branches appear in the source's order: star, literal match, backtrack,
fail.  Loop exit (`n_idx = name.len()`, which always holds exactly when the
loop stops) performs the trailing-star skip and final index check of lines
259-264. -/
def matchLoop : List Char → List Char → Option (List Char × List Char) → Bool
  | ps, [], _ => (ps.dropWhile fun c => c = '*') = []
  | ps, n :: ns2, star =>
    match ps with
    | c :: ps2 =>
      if c = '*' then matchLoop ps2 (n :: ns2) (some (ps2, []))
      else if c = n then
        matchLoop ps2 ns2
          (match star with
           | none => none
           | some (t, u) => some (t, u ++ [c]))
      else
        match star with
        | some (t, u) => matchLoop t (List.tail (u ++ n :: ns2)) (some (t, []))
        | none => false
    | [] =>
      match star with
      | some (t, u) => matchLoop t (List.tail (u ++ n :: ns2)) (some (t, []))
      | none => false
termination_by ps ns star =>
  ((match star with
    | none => ns.length
    | some (_, u) => u.length + ns.length), ns.length, ps.length)
decreasing_by
  all_goals simp_wf
  all_goals try rcases star with _ | ⟨t2, u2⟩
  all_goals simp only [Prod.lex_iff, List.length_append, List.length_cons,
    List.length_nil, true_and]
  all_goals omega

/-- `matches_pattern`, src/b_symbols.rs lines 234-265. -/
def matches_pattern (pattern name : List Char) : Bool :=
  matchLoop pattern name none

/-- Statement helper for the `matchLoop` correctness invariant: what a loop
state means in terms of `globMatch`.  With no recorded star the remaining
pattern must match the remaining name; with star `(t, u)` the pattern
`* ++ t` must match the name from `star_match_idx` on, namely `u ++ ns`. -/
def starGoal : Option (List Char × List Char) → List Char → List Char → Prop
  | none, ps, ns => globMatch ps ns = true
  | some (t, u), _, ns => globMatch ('*' :: t) (u ++ ns) = true

/-- `get_env_var`, src/commands/core.rs lines 144-155.  The two stores are
abstracted as lookup functions: `sysEnv` is the process's inherited
environment (`env::var`), `envVars` the shell's overlay store (the
`ENV_VARS` map).  The source tries the system environment FIRST and falls
back to the overlay. -/
def get_env_var (sysEnv envVars : String → Option String) (name : String) :
    Option String :=
  match sysEnv name with
  | some value => some value
  | none => envVars name

/-- A one-character string holding a single quote (used in the source's
"command not found" message). -/
def sq : String := String.mk [squote]

/-- Wait status of a child process: exited with a code, or killed by a
signal. -/
inductive WaitStatus where
  | exited (code : Int)
  | signaled (sig : Int)
deriving DecidableEq

/-- `libc::SIGINT`. -/
def SIGINT : Int := 2

/-- `libc::SIGTERM`. -/
def SIGTERM : Int := 15

/-- Status-to-outcome mapping of `execute_external_command`,
src/commands/core.rs lines 126-141, as a function of the waited status
code (`status.code()`, `none` when signal-killed; `status.success()` is
code 0).  Spawning is I/O and abstracted away: only the mapping from
termination status to result is modelled. -/
def execute_external_command_outcome (code : Option Int) : Except String Unit :=
  if code = some 0 then .ok ()
  else .error ("Command failed with code " ++ toString (code.getD (-1)))

/-- Parent-branch status mapping of `execute_external`, src/builtins.rs
lines 155-181: exit code 0 is success, 127 is the "command not found"
error, any OTHER exit code is ignored (`_ => Ok(())`, line 166); a signal
other than SIGINT/SIGTERM is an error, those two are treated as benign. -/
def execute_external_outcome (command : String) (st : WaitStatus) :
    Except String Unit :=
  match st with
  | .exited code =>
    if code = 0 then .ok ()
    else if code = 127 then
      .error ("shesh: " ++ sq ++ command ++ sq ++ " command not found.")
    else .ok ()
  | .signaled sig =>
    if sig ≠ SIGINT ∧ sig ≠ SIGTERM then
      .error ("Command terminated by signal " ++ toString sig)
    else .ok ()

/-- The wait loop of `handle_pipe`, src/b_symbols.rs lines 397-404: every
child is waited in REVERSE spawn order and `last_status` keeps the first
status observed — the last stage's.  Statuses are `Option Int` codes in
spawn order (`none` = signal-killed, success = `some 0`). -/
def pipeWaitLoop (statuses : List (Option Int)) : Option (Option Int) :=
  statuses.reverse.foldl (fun last st => if last = none then some st else last) none

/-- Outcome of the multi-stage `handle_pipe`, src/b_symbols.rs lines
341-415, as a function of the wait statuses of the pipeline's stages in
spawn order (lines 406-414): success exactly when the kept status is
successful, otherwise the pipeline error with that status's code. -/
def handle_pipe_outcome (statuses : List (Option Int)) : Except String Unit :=
  match pipeWaitLoop statuses with
  | some st =>
    if st = some 0 then .ok ()
    else .error ("Pipeline failed with code " ++ toString (st.getD (-1)))
  | none => .ok ()

/-- Outcome of the two-stage `handle_pipe`, src/commands/symbols.rs lines
302-342: both children are waited (lines 324-325), then the LEFT status is
checked first (lines 327-332) and a left failure is reported even when the
right (last) stage succeeded. -/
def handle_pipe_outcome2 (st1 st2 : Option Int) : Except String Unit :=
  if ¬ st1 = some 0 then
    .error ("Left command failed with code " ++ toString (st1.getD (-1)))
  else if ¬ st2 = some 0 then
    .error ("Right command failed with code " ++ toString (st2.getD (-1)))
  else .ok ()

/-- Rust `str::replacen(pat, rep, 1)` for a character pattern: replace the
first occurrence only. -/
def replacen1 (pat : Char) (rep : List Char) : List Char → List Char
  | [] => []
  | c :: cs => if c = pat then rep ++ cs else c :: replacen1 pat rep cs

/-- `expand_tilde`, src/utils.rs lines 19-35: a path starting with `~` has
its first `~` replaced by the home directory.  The home lookup
(`env::home_dir()` falling back to `get_env_var("HOME")`) is I/O and
abstracted as the `home` parameter, `none` meaning no home is available.
The function never returns an error (all arms are `Ok`). -/
def expand_tilde (home : Option (List Char)) (path : List Char) : List Char :=
  if path.head? = some '~' then
    match home with
    | some h => replacen1 '~' h path
    | none => path
  else path

/-- `expand_wildcard`, src/b_symbols.rs lines 96-151 (identical copy at
src/commands/symbols.rs lines 74-129).  A pattern without `*` is returned
as-is (lines 98-100).  The directory-reading branch performs file-system
I/O and is abstracted as the oracle `globFS`, which maps the pattern to
the resulting list (the matches, or the original pattern when none). -/
def expand_wildcard (globFS : List Char → List (List Char))
    (pattern : List Char) : List (List Char) :=
  if ¬ pattern.contains '*' then [pattern]
  else globFS pattern

/-- The symbol-separating loop at the start of the b_symbols
`expand_tokens`, src/b_symbols.rs lines 198-215: each of `; | & < >`
becomes its own piece, flushing the accumulated characters. -/
def splitSymbolsAux : List Char → List Char → List (List Char)
  | [], current => if current ≠ [] then [current] else []
  | c :: cs, current =>
    if c = ';' ∨ c = '|' ∨ c = '&' ∨ c = '<' ∨ c = '>' then
      (if current ≠ [] then [current] else []) ++ [c] :: splitSymbolsAux cs []
    else splitSymbolsAux cs (current ++ [c])

/-- Entry point of the symbol-separating loop. -/
def splitSymbols (token : List Char) : List (List Char) :=
  splitSymbolsAux token []

namespace BSymbols

/-- `expand_tokens`, src/b_symbols.rs lines 193-231: each token is split at
attached symbol characters, then each piece gets tilde expansion, brace
expansion, and wildcard expansion, concatenating all results in order. -/
def expand_tokens (home : Option (List Char))
    (globFS : List Char → List (List Char))
    (tokens : List (List Char)) : List (List Char) :=
  tokens.flatMap fun token =>
    (splitSymbols token).flatMap fun t =>
      (expand_braces (expand_tilde home t)).flatMap fun b =>
        expand_wildcard globFS b

end BSymbols

namespace CmdSymbols

/-- `expand_tokens`, src/commands/symbols.rs lines 171-183: brace expansion
then wildcard expansion on each token, concatenating the results. -/
def expand_tokens (globFS : List Char → List (List Char))
    (tokens : List (List Char)) : List (List Char) :=
  tokens.flatMap fun token =>
    (expand_braces token).flatMap fun t => expand_wildcard globFS t

end CmdSymbols

/-- Rust `split_whitespace` on character lists: maximal nonempty runs of
non-whitespace characters. -/
def splitWhitespaceAux : List Char → List Char → List (List Char)
  | [], current => if current ≠ [] then [current] else []
  | c :: cs, current =>
    if c.isWhitespace then
      (if current ≠ [] then [current] else []) ++ splitWhitespaceAux cs []
    else splitWhitespaceAux cs (current ++ [c])

/-- Entry point for whitespace splitting. -/
def splitWhitespace (s : List Char) : List (List Char) :=
  splitWhitespaceAux s []

/-- Rust `str::replace` on character lists: every leftmost non-overlapping
occurrence of `pat` is replaced by `rep`.  The source only calls this with
the nonempty patterns `$1`, `$2`, …; an empty pattern is returned
unchanged here to keep the function total. -/
def replaceAll (pat rep : List Char) : List Char → List Char
  | [] => []
  | c :: cs =>
    if h : pat ≠ [] ∧ listStartsWith (c :: cs) pat then
      rep ++ replaceAll pat rep ((c :: cs).drop pat.length)
    else c :: replaceAll pat rep cs
termination_by s => s.length
decreasing_by
  · have : 1 ≤ pat.length := List.length_pos.mpr h.1
    simp only [List.length_drop, List.length_cons]
    omega
  · simp

/-- Rust `splitn(2, ' ')`: the text before the first space, and the
remainder after it when a space exists. -/
def splitn2Space : List Char → List Char × Option (List Char)
  | [] => ([], none)
  | c :: cs =>
    if c = ' ' then ([], some cs)
    else
      match splitn2Space cs with
      | (w, r) => (c :: w, r)

/-- Decimal digits of a number, for the `$1`, `$2`, … parameter names. -/
def natLit (n : Nat) : List Char := (toString n).toList

/-- The positional-parameter substitution of `expand_aliases`,
src/commands/core.rs lines 40-45: for each whitespace-separated argument
`arg` at index `i`, replace `$​(i+1)` in the alias body by `arg`,
left to right. -/
def paramSubst (aliasCmd rest : List Char) : List Char :=
  (splitWhitespace rest).enum.foldl
    (fun acc p => replaceAll ('$' :: natLit (p.1 + 1)) p.2 acc) aliasCmd

/-- One iteration body of the `expand_aliases` loop, src/commands/core.rs
lines 33-54: split the line at the first space; if the first word is a
known alias, produce the new line (with positional parameters substituted
and the argument text re-appended when arguments exist), else stop.  The
alias table read under the mutex is abstracted as the pure `lookup`. -/
def substStep (lookup : List Char → Option (List Char)) (result : List Char) :
    Option (List Char) :=
  match splitn2Space result with
  | (w, rest?) =>
    match lookup w with
    | none => none
    | some aliasCmd =>
      match rest? with
      | none => some aliasCmd
      | some rest => some (paramSubst aliasCmd rest ++ ' ' :: rest)

/-- `MAX_DEPTH`, src/commands/core.rs line 30. -/
def MAX_DEPTH : Nat := 10

/-- The `while depth < MAX_DEPTH` loop of `expand_aliases`,
src/commands/core.rs lines 32-55, returning the final line and depth. -/
def expandAliasesLoop (lookup : List Char → Option (List Char)) :
    List Char → Nat → List Char × Nat
  | result, depth =>
    if depth < MAX_DEPTH then
      match substStep lookup result with
      | some r => expandAliasesLoop lookup r (depth + 1)
      | none => (result, depth)
    else (result, depth)
termination_by _ depth => MAX_DEPTH - depth
decreasing_by
  simp only [MAX_DEPTH] at *
  omega

/-- `expand_aliases`, src/commands/core.rs lines 27-62: the expanded line,
the number of substitutions performed, and whether the depth-limit warning
of lines 57-59 was printed. -/
def expand_aliases (lookup : List Char → Option (List Char)) (input : List Char) :
    List Char × Nat × Bool :=
  match expandAliasesLoop lookup input 0 with
  | (r, d) => (r, d, decide (MAX_DEPTH ≤ d))

/-- Statement helper: the line after exactly `n` successful alias
substitutions (stopping early if none applies). -/
def iterSubst (lookup : List Char → Option (List Char)) : Nat → List Char → List Char
  | 0, s => s
  | n + 1, s =>
    match substStep lookup s with
    | some r => iterSubst lookup n r
    | none => s

/-- `SymbolType`, src/b_symbols.rs lines 8-20. -/
inductive SymbolType where
  | pipe
  | redirectOut
  | redirectAppend
  | redirectIn
  | redirectErr
  | redirectErrAppend
  | redirectAll
  | redirectAllAppend
  | background
  | andAnd
  | semicolon
deriving DecidableEq

/-- `SymbolType::from_str`, src/b_symbols.rs lines 23-40. -/
def SymbolType.fromStr : String → Option SymbolType
  | "|" => some .pipe
  | ">" => some .redirectOut
  | ">>" => some .redirectAppend
  | "<" => some .redirectIn
  | "1>" => some .redirectOut
  | "1>>" => some .redirectAppend
  | "2>" => some .redirectErr
  | "2>>" => some .redirectErrAppend
  | "&>" => some .redirectAll
  | "&>>" => some .redirectAllAppend
  | "&" => some .background
  | "&&" => some .andAnd
  | ";" => some .semicolon
  | _ => none

/-- The scan of src/b_symbols.rs lines 45-53 followed by taking
`symbol_positions[0]` (line 59): the first token recognized as a special
symbol, with its position. -/
def firstSymbol : List String → Option (Nat × SymbolType)
  | [] => none
  | t :: ts =>
    match SymbolType.fromStr t with
    | some s => some (0, s)
    | none => (firstSymbol ts).map fun p => (p.1 + 1, p.2)

/-- Return value of `handle_background`, src/b_symbols.rs lines 418-446
(identical logic at src/commands/symbols.rs lines 345-374): an empty
command list is the error "Missing command"; otherwise the command is
spawned on a detached thread whose handle is dropped and the function
returns success regardless of the spawned command's fate. -/
def handle_background (cmdTokens : List String) : Except String Unit :=
  if cmdTokens.isEmpty then .error "Missing command" else .ok ()

/-- `handle_symbols`, src/b_symbols.rs lines 44-93.  The effectful branch
handlers — pipe (line 61), redirection (line 72), `&&` (line 90) and `;`
(line 91), all of which spawn processes — are oracle parameters, so any
fact proved for all oracles is independent of command execution.  The
background branch (lines 84-89), which C10 concerns, is concrete, as is
the redirection branch's argument check and its tail recursion (lines
69-82). -/
def handle_symbols
    (hPipe : List String → List String → Except String Unit)
    (hRedir : SymbolType → List String → String → Except String Unit)
    (hAnd : List String → List String → Except String Unit)
    (hSemi : List String → List String → Except String Unit)
    (tokens : List String) : Except String Unit :=
  match firstSymbol tokens with
    | none => .error "No special symbol found"
    | some (pos, symbol) =>
      match symbol with
      | .pipe => hPipe (tokens.take pos) (tokens.drop (pos + 1))
      | .background =>
        if pos ≠ tokens.length - 1 then
          .error "Background symbol must be at the end"
        else handle_background (tokens.take pos)
      | .andAnd => hAnd (tokens.take pos) (tokens.drop (pos + 1))
      | .semicolon => hSemi (tokens.take pos) (tokens.drop (pos + 1))
      | redirSym =>
        if tokens.length ≤ pos + 1 then .error "Missing file argument"
        else
          match hRedir redirSym (tokens.take pos) (tokens.getD (pos + 1) "") with
          | .error e => .error e
          | .ok () =>
            if h2 : pos + 2 < tokens.length then
              handle_symbols hPipe hRedir hAnd hSemi (tokens.drop (pos + 2))
            else .ok ()
termination_by tokens.length
decreasing_by
  simp only [List.length_drop]
  omega

end Shesh

namespace Shesh

/-- C1 counterexample: on the line `a > out.txt && b` the parser splits at
the first table operator with an occurrence, which is `>`; the redirection
node is therefore the ROOT of the tree and the `&&` node sits inside its
right subtree, not the other way around as the claim states. -/
theorem parse_redirect_and_counterexample :
    parse_syntax (String.toList "a > out.txt && b") ≠
      .binaryOp
        (.binaryOp (.single [String.toList "a"]) (.redirect .stdout)
          (.single [String.toList "out.txt"]))
        .and
        (.single [String.toList "b"]) := by
  decide

/-- Once a comment has been found, a tokenizer step changes nothing
(src/parse.rs lines 103-105). -/
theorem tokStep_comment (st : TokSt) (c : Char) (h : st.foundComment = true) :
    tokStep st c = st := by
  simp [tokStep, h]

/-- Once a comment has been found, the rest of the line is ignored. -/
theorem foldl_tokStep_comment (cs : List Char) (st : TokSt)
    (h : st.foundComment = true) : cs.foldl tokStep st = st := by
  induction cs with
  | nil => rfl
  | cons c cs ih => simpa [tokStep_comment st c h] using ih

/-- C6 counterexample: tokenizing `ab#c` yields NO tokens at all, while the
prefix `ab` alone tokenizes to `["ab"]`: the token in progress when the `#`
is reached is discarded (the final push at src/parse.rs line 128 is guarded
by `!found_comment`), so it is not "still produced" as the claim states. -/
theorem tokenize_comment_counterexample :
    tokenize (String.toList "ab#c") = [] ∧
      tokenize (String.toList "ab") = [String.toList "ab"] := by
  constructor <;> decide

/-- C6 amended: for a line formed of a prefix (scanned to a state with no
open quote, no comment and no pending escape) followed by `#` and arbitrary
trailing text, `tokenize` returns exactly the COMPLETED tokens of the
prefix: the comment consumes the remainder of the line from the `#` onward,
and a token still in progress at the `#` is discarded, not produced. -/
theorem tokenize_comment_amended (p rest : List Char)
    (hs : (p.foldl tokStep tokInit).inSingle = false)
    (hd : (p.foldl tokStep tokInit).inDouble = false)
    (hc : (p.foldl tokStep tokInit).foundComment = false)
    (he : (p.foldl tokStep tokInit).esc = false) :
    tokenize (p ++ hashc :: rest) = (p.foldl tokStep tokInit).tokens := by
  unfold tokenize
  rw [List.foldl_append]
  set st := p.foldl tokStep tokInit with hst
  have hstep : tokStep st hashc = { st with foundComment := true } := by
    rw [tokStep]
    simp [hs, hd, hc, he,
      show hashc ≠ bslash by decide, show hashc ≠ dquote by decide,
      show hashc ≠ squote by decide]
  have habs : (hashc :: rest).foldl tokStep st = { st with foundComment := true } := by
    simpa [hstep] using foldl_tokStep_comment rest { st with foundComment := true } rfl
  simp [habs]

/-- C6 witness: instantiating the amended theorem on the line `ab cd#xx`,
whose prefix has a completed token `ab` and an in-progress token `cd`. -/
theorem tokenize_comment_amended_witness :
    ((String.toList "ab cd").foldl tokStep tokInit).foundComment = false ∧
      tokenize (String.toList "ab cd#xx") = [String.toList "ab"] := by
  refine ⟨by decide, ?_⟩
  have h := tokenize_comment_amended (String.toList "ab cd") (String.toList "xx")
    (by decide) (by decide) (by decide) (by decide)
  have hsplit : String.toList "ab cd#xx" =
      String.toList "ab cd" ++ hashc :: String.toList "xx" := by decide
  rw [hsplit, h]
  decide

/-- C1 amended: `parse("a > out.txt && b")` splits first at `>` (earliest
table entry with an occurrence), producing
`BinaryOp(Single(["a"]), Redirect(Stdout),
          BinaryOp(Single(["out.txt"]), And, Single(["b"])))`:
the redirection is the root and `&&` binds inside its file-target side. -/
theorem parse_redirect_and_amended :
    parse_syntax (String.toList "a > out.txt && b") =
      .binaryOp (.single [String.toList "a"]) (.redirect .stdout)
        (.binaryOp (.single [String.toList "out.txt"]) .and
          (.single [String.toList "b"])) := by
  decide

/-- A chunk containing no brace characters is appended literally to every
accumulated string, whatever the brace state. -/
theorem foldl_braceStep_plain (chunk : List Char)
    (h : ∀ c ∈ chunk, c ≠ '{' ∧ c ≠ '}') (result : List (List Char))
    (stack : List (List (List Char))) (b : Bool) :
    chunk.foldl braceStep (result, stack, b) =
      (result.map fun s => s ++ chunk, stack, b) := by
  induction chunk generalizing result with
  | nil => simp
  | cons c cs ih =>
    have hc := h c (by simp)
    have hcs : ∀ x ∈ cs, x ≠ '{' ∧ x ≠ '}' := fun x hx => h x (by simp [hx])
    simp only [List.foldl_cons]
    rw [show braceStep (result, stack, b) c = (result.map fun s => s ++ [c], stack, b)
      from by simp [braceStep, hc.1, hc.2]]
    rw [ih hcs]
    simp [List.map_map, Function.comp, List.append_assoc]

/-- C4 counterexample: nested braces are NOT resolved recursively.  On
`{a,{b,c}}` the inner `{` is an ordinary character (the opening-brace arm
requires `!in_brace`), the FIRST `}` closes the group, and the final `}` is
appended literally, giving `["a}", "{b}", "c}"]` — not the `["a","b","c"]`
that innermost-outward resolution would produce. -/
theorem expand_braces_nested_counterexample :
    expand_braces ['{', 'a', ',', '{', 'b', ',', 'c', '}', '}'] =
        [['a', '}'], ['{', 'b', '}'], ['c', '}']] ∧
      expand_braces ['{', 'a', ',', '{', 'b', ',', 'c', '}', '}'] ≠
        [['a'], ['b'], ['c']] := by
  constructor <;> decide

/-- C4 amended: a single non-nested `{...}` group anywhere in a token
expands to the cross product of the surrounding text with each
comma-separated alternative (trimmed, empty alternatives dropped)
substituted in place; nested braces are NOT supported — an inner `{` inside
an open group is treated as a literal character and the first `}` closes
the group. -/
theorem expand_braces_single_group (pre mid post : List Char)
    (hpre : ∀ c ∈ pre, c ≠ '{' ∧ c ≠ '}')
    (hmid : ∀ c ∈ mid, c ≠ '{' ∧ c ≠ '}')
    (hpost : ∀ c ∈ post, c ≠ '{' ∧ c ≠ '}') :
    expand_braces (pre ++ '{' :: (mid ++ '}' :: post)) =
      (braceParts [mid]).map fun a => pre ++ a ++ post := by
  unfold expand_braces
  rw [List.foldl_append, foldl_braceStep_plain pre hpre]
  simp only [List.map_cons, List.map_nil, List.nil_append, List.foldl_cons]
  rw [show braceStep ([pre], [], false) '{' = ([[]], [[pre]], true) from by
    simp [braceStep]]
  rw [List.foldl_append, foldl_braceStep_plain mid hmid]
  simp only [List.map_cons, List.map_nil, List.nil_append, List.foldl_cons]
  rw [show braceStep ([mid], [[pre]], true) '}' =
      ((braceParts [mid]).map fun p => pre ++ p, [], false) from by
    simp only [braceStep]
    rw [if_neg (by simp), if_pos (by simp)]
    simp]
  rw [foldl_braceStep_plain post hpost]
  simp [List.map_map, Function.comp, List.append_assoc]

/-- C4 witness: the amended theorem at `x{a,b}y`. -/
theorem expand_braces_single_group_witness :
    expand_braces (['x'] ++ '{' :: (['a', ',', 'b'] ++ '}' :: ['y'])) =
      [['x', 'a', 'y'], ['x', 'b', 'y']] := by
  rw [expand_braces_single_group ['x'] ['a', ',', 'b'] ['y']
    (by decide) (by decide) (by decide)]
  decide

/-- Against the empty name, a pattern matches exactly when it consists of
stars only — which is what the loop-exit check of `matches_pattern`
(trailing-star skip plus index comparison) computes. -/
theorem globMatch_nil (ps : List Char) :
    globMatch ps [] = true ↔ (ps.dropWhile fun c => c = '*') = [] := by
  induction ps with
  | nil => simp [globMatch]
  | cons c ps ih =>
    by_cases hc : c = '*'
    · subst hc
      simp [globMatch, List.dropWhile, ih]
    · simp [globMatch, hc, List.dropWhile]

/-- A leading star matches a name exactly when the rest of the pattern
matches some suffix of the name. -/
theorem globMatch_star_iff (t n : List Char) :
    globMatch ('*' :: t) n = true ↔ ∃ k, globMatch t (n.drop k) = true := by
  induction n with
  | nil =>
    rw [show globMatch ('*' :: t) [] = globMatch t [] from by simp [globMatch]]
    constructor
    · intro h; exact ⟨0, h⟩
    · rintro ⟨k, h⟩; simpa using h
  | cons x n ih =>
    rw [show globMatch ('*' :: t) (x :: n) =
        (globMatch t (x :: n) || globMatch ('*' :: t) n) from by simp [globMatch]]
    simp only [Bool.or_eq_true]
    constructor
    · rintro (h | h)
      · exact ⟨0, h⟩
      · rcases ih.mp h with ⟨k, hk⟩
        exact ⟨k + 1, by simpa using hk⟩
    · rintro ⟨k, hk⟩
      cases k with
      | zero => exact Or.inl (by simpa using hk)
      | succ k => exact Or.inr (ih.mpr ⟨k, by simpa using hk⟩)

/-- A star-free pattern prefix must be consumed literally. -/
theorem globMatch_append_iff (u ps m : List Char) (hu : '*' ∉ u) :
    globMatch (u ++ ps) m = true ↔
      ∃ m2, m = u ++ m2 ∧ globMatch ps m2 = true := by
  induction u generalizing m with
  | nil => simp
  | cons c u ih =>
    have hc : c ≠ '*' := fun h => hu (by simp [h])
    have hu2 : '*' ∉ u := fun h => hu (by simp [h])
    simp only [List.cons_append]
    cases m with
    | nil =>
      rw [show globMatch (c :: (u ++ ps)) [] = false from by simp [globMatch, hc]]
      simp
    | cons d m =>
      rw [show globMatch (c :: (u ++ ps)) (d :: m) =
          (decide (c = d) && globMatch (u ++ ps) m) from by simp [globMatch, hc]]
      by_cases hcd : c = d
      · subst hcd
        rw [show (decide (c = c) && globMatch (u ++ ps) m) = globMatch (u ++ ps) m
          from by simp]
        rw [ih m hu2]
        simp
      · rw [show (decide (c = d)) = false from by simp [hcd], Bool.false_and]
        constructor
        · intro h; cases h
        · rintro ⟨m2, heq, _⟩
          exact absurd (List.head_eq_of_cons_eq heq) (fun h => hcd h.symm)

/-- If `pre ++ m = u ++ ns` and `u` is no longer than `pre`, then `m` is a
suffix of `ns` at an explicit offset. -/
theorem append_eq_append_drop (pre m u ns : List Char)
    (h : pre ++ m = u ++ ns) (hl : u.length ≤ pre.length) :
    ∃ j, m = ns.drop j := by
  refine ⟨pre.length - u.length, ?_⟩
  have h2 : ns = (pre ++ m).drop u.length := by
    rw [h, List.drop_left]
  rw [h2, List.drop_drop, Nat.add_sub_cancel' hl, List.drop_left]

/-- Star absorption: a pattern beginning with a star followed by star-free
text `u` followed by another star matches `u ++ ns` exactly when the part
from the second star on matches `ns`.  This is why the source's matcher may
forget all but the most recent star. -/
theorem globMatch_star_absorb (u ps ns : List Char) (hu : '*' ∉ u) :
    globMatch ('*' :: (u ++ '*' :: ps)) (u ++ ns) = true ↔
      globMatch ('*' :: ps) ns = true := by
  constructor
  · intro h
    rcases (globMatch_star_iff _ _).mp h with ⟨k, hk⟩
    rcases (globMatch_append_iff u ('*' :: ps) _ hu).mp hk with ⟨m2, hm2, hg⟩
    have htd := List.take_append_drop k (u ++ ns)
    rw [hm2] at htd
    have hpre : ((u ++ ns).take k ++ u) ++ m2 = u ++ ns := by
      rw [List.append_assoc, htd]
    rcases append_eq_append_drop _ _ _ _ hpre (by simp) with ⟨j, hj⟩
    subst hj
    rcases (globMatch_star_iff ps _).mp hg with ⟨i, hi⟩
    rw [List.drop_drop] at hi
    exact (globMatch_star_iff ps ns).mpr ⟨j + i, hi⟩
  · intro h
    refine (globMatch_star_iff _ _).mpr ⟨0, ?_⟩
    simpa using (globMatch_append_iff u ('*' :: ps) (u ++ ns) hu).mpr ⟨ns, rfl, h⟩

/-- A star followed by star-free text `u` and a pattern remainder, matched
against `u` itself: only star-only remainders survive. -/
theorem globMatch_star_self (u ps : List Char) (hu : '*' ∉ u) :
    globMatch ('*' :: (u ++ ps)) u = true ↔ globMatch ps [] = true := by
  constructor
  · intro h
    rcases (globMatch_star_iff _ _).mp h with ⟨k, hk⟩
    rcases (globMatch_append_iff u ps _ hu).mp hk with ⟨m2, hm2, hg⟩
    have hlen := congrArg List.length hm2
    simp only [List.length_drop, List.length_append] at hlen
    have : m2 = [] := List.eq_nil_of_length_eq_zero (by omega)
    subst this
    exact hg
  · intro h
    refine (globMatch_star_iff _ _).mpr ⟨0, ?_⟩
    exact (globMatch_append_iff u ps u hu).mpr ⟨[], by simp, h⟩

/-- Backtracking is complete: if the literal tail `ps` recorded since the
last star fails on the current name, a star pattern matches `u ++ name`
exactly when it matches its tail — the star can simply absorb one more
character. -/
theorem globMatch_star_tail (t u ps : List Char) (n : Char) (ns2 : List Char)
    (ht : t = u ++ ps) (hu : '*' ∉ u)
    (hfail : globMatch ps (n :: ns2) = false) :
    (globMatch ('*' :: t) (u ++ n :: ns2) = true ↔
      globMatch ('*' :: t) ((u ++ n :: ns2).tail) = true) := by
  have hT : globMatch t (u ++ n :: ns2) = false := by
    rw [ht]
    by_contra hne
    have hTrue : globMatch (u ++ ps) (u ++ n :: ns2) = true := by
      cases hx : globMatch (u ++ ps) (u ++ n :: ns2) with
      | true => rfl
      | false => exact absurd hx hne
    rcases (globMatch_append_iff u ps _ hu).mp hTrue with ⟨m2, hm2, hg⟩
    have : m2 = n :: ns2 := by
      have := List.append_cancel_left hm2
      exact this.symm
    subst this
    rw [hfail] at hg
    cases hg
  rcases hm : u ++ n :: ns2 with _ | ⟨m0, mrest⟩
  · exact absurd hm (by cases u <;> simp)
  · rw [show globMatch ('*' :: t) (m0 :: mrest) =
        (globMatch t (m0 :: mrest) || globMatch ('*' :: t) mrest) from by
      simp [globMatch]]
    rw [← hm, hT]
    simp [hm]

/-- Correctness of the `matches_pattern` loop relative to `globMatch`,
proved by the loop's own recursion structure under the state invariant
documented at `matchLoop`. -/
theorem matchLoop_globMatch :
    ∀ (ps ns : List Char) (star : Option (List Char × List Char)),
      (∀ t u, star = some (t, u) → t = u ++ ps ∧ '*' ∉ u) →
      (matchLoop ps ns star = true ↔ starGoal star ps ns) := by
  intro ps ns star
  induction ps, ns, star using matchLoop.induct with
  | case1 ps star =>
    intro hstar
    rcases star with _ | ⟨t, u⟩
    · rw [matchLoop]
      simp only [starGoal, decide_eq_true_eq]
      exact (globMatch_nil ps).symm
    · obtain ⟨ht, hu⟩ := hstar t u rfl
      subst ht
      rw [matchLoop]
      simp only [starGoal, List.append_nil, decide_eq_true_eq]
      rw [globMatch_star_self u ps hu, ← globMatch_nil ps]
  | case2 n ns2 star ps2 ih =>
    intro hstar
    have ihh := ih (by rintro t u h; cases h; exact ⟨rfl, by simp⟩)
    rw [show matchLoop ('*' :: ps2) (n :: ns2) star =
        matchLoop ps2 (n :: ns2) (some (ps2, [])) from by
      rw [matchLoop.eq_def]; simp]
    rcases star with _ | ⟨t, u⟩
    · simpa [starGoal] using ihh
    · obtain ⟨ht, hu⟩ := hstar t u rfl
      subst ht
      rw [ihh]
      simp only [starGoal, List.nil_append]
      exact (globMatch_star_absorb u ps2 (n :: ns2) hu).symm
  | case3 ns2 star c ps2 hc ih =>
    intro hstar
    rcases star with _ | ⟨t, u⟩
    · have ihh := ih (by rintro t u h; cases h)
      rw [show matchLoop (c :: ps2) (c :: ns2) none = matchLoop ps2 ns2 none
        from by simp [matchLoop, hc]]
      rw [ihh]
      simp only [starGoal]
      rw [show globMatch (c :: ps2) (c :: ns2) =
          (decide (c = c) && globMatch ps2 ns2) from by simp [globMatch, hc]]
      simp
    · obtain ⟨ht, hu⟩ := hstar t u rfl
      have ihh := ih (by
        rintro t2 u2 h
        cases h
        refine ⟨by rw [ht]; simp, ?_⟩
        simp only [List.mem_append, List.mem_singleton]
        rintro (h2 | h2)
        · exact hu h2
        · exact hc h2.symm)
      rw [show matchLoop (c :: ps2) (c :: ns2) (some (t, u)) =
          matchLoop ps2 ns2 (some (t, u ++ [c])) from by simp [matchLoop, hc]]
      rw [ihh]
      simp [starGoal, List.append_assoc]
  | case4 n ns2 c ps2 hc hn t u ih =>
    intro hstar
    obtain ⟨ht, hu⟩ := hstar t u rfl
    have ihh := ih (by rintro t2 u2 h; cases h; exact ⟨rfl, by simp⟩)
    rw [show matchLoop (c :: ps2) (n :: ns2) (some (t, u)) =
        matchLoop t ((u ++ n :: ns2).tail) (some (t, [])) from by
      simp [matchLoop, hc, hn]]
    rw [ihh]
    simp only [starGoal, List.nil_append]
    have hfail : globMatch (c :: ps2) (n :: ns2) = false := by
      simp [globMatch, hc, hn]
    exact (globMatch_star_tail t u (c :: ps2) n ns2 ht hu hfail).symm
  | case5 n ns2 c ps2 hc hn =>
    intro _
    rw [show matchLoop (c :: ps2) (n :: ns2) none = false from by
      simp [matchLoop, hc, hn]]
    simp only [starGoal]
    constructor
    · intro h; cases h
    · intro h
      rw [show globMatch (c :: ps2) (n :: ns2) =
          (decide (c = n) && globMatch ps2 ns2) from by simp [globMatch, hc]] at h
      simp [hn] at h
  | case6 n ns2 t u ih =>
    intro hstar
    obtain ⟨ht, hu⟩ := hstar t u rfl
    have ihh := ih (by rintro t2 u2 h; cases h; exact ⟨rfl, by simp⟩)
    rw [show matchLoop [] (n :: ns2) (some (t, u)) =
        matchLoop t ((u ++ n :: ns2).tail) (some (t, [])) from by
      simp [matchLoop]]
    rw [ihh]
    simp only [starGoal, List.nil_append]
    have hfail : globMatch [] (n :: ns2) = false := by simp [globMatch]
    have ht2 : t = u ++ [] := by simpa using ht
    exact (globMatch_star_tail t u [] n ns2 ht2 hu hfail).symm
  | case7 n ns2 =>
    intro _
    rw [show matchLoop [] (n :: ns2) none = false from by simp [matchLoop]]
    simp [starGoal, globMatch]

/-- Inversion: the empty pattern only matches the empty name. -/
theorem globLang_nil_inv {n : List Char} (h : GlobLang [] n) : n = [] := by
  cases h
  rfl

/-- Inversion for a leading star. -/
theorem globLang_star_inv {p n : List Char} (h : GlobLang ('*' :: p) n) :
    ∃ run n2, n = run ++ n2 ∧ GlobLang p n2 := by
  cases h with
  | lit hne hg => exact absurd rfl hne
  | star run hg => exact ⟨run, _, rfl, hg⟩

/-- Inversion for a leading literal character. -/
theorem globLang_lit_inv {c : Char} {p n : List Char} (hc : c ≠ '*')
    (h : GlobLang (c :: p) n) : ∃ n2, n = c :: n2 ∧ GlobLang p n2 := by
  cases h with
  | lit hne hg => exact ⟨_, rfl, hg⟩
  | star run hg => exact absurd rfl hc

/-- The recursive matcher decides the glob language of the spec. -/
theorem globMatch_iff_globLang (p n : List Char) :
    globMatch p n = true ↔ GlobLang p n := by
  induction p, n using globMatch.induct with
  | case1 =>
    rw [show globMatch [] [] = true from by simp [globMatch]]
    exact ⟨fun _ => GlobLang.nil, fun _ => rfl⟩
  | case2 x ns =>
    rw [show globMatch [] (x :: ns) = false from by simp [globMatch]]
    constructor
    · intro h; cases h
    · intro h; exact absurd (globLang_nil_inv h) (by simp)
  | case3 ps ns ih1 ih2 =>
    cases ns with
    | nil =>
      rw [show globMatch ('*' :: ps) [] = globMatch ps [] from by simp [globMatch]]
      constructor
      · intro h
        exact GlobLang.star [] (ih1.mp h)
      · intro h
        rcases globLang_star_inv h with ⟨run, n2, heq, hg⟩
        rcases List.append_eq_nil.mp heq.symm with ⟨hr, hn2⟩
        subst hr
        subst hn2
        exact ih1.mpr hg
    | cons x ns2 =>
      rw [show globMatch ('*' :: ps) (x :: ns2) =
          (globMatch ps (x :: ns2) || globMatch ('*' :: ps) ns2) from by
        simp [globMatch]]
      simp only [Bool.or_eq_true]
      constructor
      · rintro (h | h)
        · exact GlobLang.star [] (ih1.mp h)
        · rcases globLang_star_inv (ih2.mp h) with ⟨run, n2, heq, hg⟩
          rw [heq]
          exact GlobLang.star (x :: run) hg
      · intro h
        rcases globLang_star_inv h with ⟨run, n2, heq, hg⟩
        cases run with
        | nil =>
          refine Or.inl (ih1.mpr ?_)
          simp only [List.nil_append] at heq
          rw [← heq] at hg
          exact hg
        | cons y run2 =>
          refine Or.inr (ih2.mpr ?_)
          have hx : ns2 = run2 ++ n2 := by
            simpa using congrArg List.tail heq
          rw [hx]
          exact GlobLang.star run2 hg
  | case4 c ps hc =>
    rw [show globMatch (c :: ps) [] = false from by simp [globMatch, hc]]
    constructor
    · intro h; cases h
    · intro h
      rcases globLang_lit_inv hc h with ⟨n2, heq, _⟩
      exact absurd heq (by simp)
  | case5 c ps hc x ns2 ih =>
    rw [show globMatch (c :: ps) (x :: ns2) =
        (decide (c = x) && globMatch ps ns2) from by simp [globMatch, hc]]
    simp only [Bool.and_eq_true, decide_eq_true_eq]
    constructor
    · rintro ⟨rfl, h⟩
      exact GlobLang.lit hc (ih.mp h)
    · intro h
      rcases globLang_lit_inv hc h with ⟨n2, heq, hg⟩
      obtain ⟨rfl, rfl⟩ : x = c ∧ ns2 = n2 :=
        ⟨List.head_eq_of_cons_eq heq, List.tail_eq_of_cons_eq heq⟩
      exact ⟨rfl, ih.mpr hg⟩

/-- C3 counterexample: for a variable defined in BOTH stores, `get_env_var`
returns the inherited environment's value, not the overlay's — the source
(src/commands/core.rs lines 144-155) tries `env::var` first and only
falls back to the `ENV_VARS` overlay. -/
theorem get_env_var_counterexample :
    get_env_var (fun n => if n = "X" then some "inherited" else none)
        (fun n => if n = "X" then some "overlay" else none) "X" =
        some "inherited" ∧
      get_env_var (fun n => if n = "X" then some "inherited" else none)
        (fun n => if n = "X" then some "overlay" else none) "X" ≠
        some "overlay" := by
  constructor <;> decide

/-- C3 amended: `get_env_var` checks the INHERITED process environment
first and falls back to the overlay, so for a name defined in both the
inherited value shadows the overlay's; the overlay is only consulted when
the inherited environment has no binding. -/
theorem get_env_var_amended (sysEnv envVars : String → Option String)
    (name : String) :
    (∀ v, sysEnv name = some v → get_env_var sysEnv envVars name = some v) ∧
      (sysEnv name = none → get_env_var sysEnv envVars name = envVars name) := by
  constructor
  · intro v hv
    simp [get_env_var, hv]
  · intro hv
    simp [get_env_var, hv]

/-- C3 witness: the amended theorem at a concrete pair of stores. -/
theorem get_env_var_amended_witness :
    get_env_var (fun n => if n = "X" then some "inherited" else none)
        (fun n => if n = "X" then some "overlay" else none) "X" =
      some "inherited" :=
  (get_env_var_amended (fun n => if n = "X" then some "inherited" else none)
    (fun n => if n = "X" then some "overlay" else none) "X").1 "inherited"
    (by decide)

/-- C5 counterexample: in the builtins.rs variant (`execute_external`,
lines 155-181), a child that exits with code 1 yields SUCCESS: only exit
code 127 is reported (as "command not found"), every other non-zero exit
code falls into the `_ => Ok(())` arm. -/
theorem execute_external_nonzero_counterexample :
    execute_external_outcome "false" (.exited 1) = .ok () ∧ (1 : Int) ≠ 0 := by
  constructor
  · rfl
  · decide

/-- C5 amended: for a non-zero exit code `c`, the commands/core.rs variant
(`execute_external_command`) returns the failure "Command failed with code
c"; the builtins.rs variant (`execute_external`) instead reports only code
127 (as its "command not found" error) and maps every other non-zero code
to success. -/
theorem external_exit_code_amended (cmd : String) (c : Int) (hc : c ≠ 0) :
    execute_external_command_outcome (some c) =
        .error ("Command failed with code " ++ toString c) ∧
      (c = 127 → execute_external_outcome cmd (.exited c) =
        .error ("shesh: " ++ sq ++ cmd ++ sq ++ " command not found.")) ∧
      (c ≠ 127 → execute_external_outcome cmd (.exited c) = .ok ()) := by
  refine ⟨?_, ?_, ?_⟩
  · simp [execute_external_command_outcome, hc]
  · intro h
    subst h
    rfl
  · intro h
    simp [execute_external_outcome, hc, h]

/-- C5 witness: the amended theorem at exit code 3. -/
theorem external_exit_code_amended_witness :
    execute_external_command_outcome (some 3) =
        .error ("Command failed with code " ++ toString (3 : Int)) ∧
      execute_external_outcome "false" (.exited 3) = .ok () := by
  have h := external_exit_code_amended "false" 3 (by decide)
  exact ⟨h.1, h.2.2 (by decide)⟩

/-- Once the wait loop has recorded a status, later waits do not change
it. -/
theorem pipeWaitLoop_keeps (l : List (Option Int)) (x : Option Int) :
    l.foldr (fun a last => if last = none then some a else last) (some x) =
      some x := by
  induction l with
  | nil => rfl
  | cons a l ih => simp [ih]

/-- C2 amended (multi-stage variant): for every pipeline, the b_symbols.rs
`handle_pipe` waits for every stage (the wait loop folds over all of them)
and reports exactly the LAST stage's status: success when it is 0, and
otherwise "Pipeline failed with code" it — whatever the earlier stages'
statuses `ss` were. -/
theorem handle_pipe_last_stage (ss : List (Option Int)) (s : Option Int) :
    handle_pipe_outcome (ss ++ [s]) =
      (if s = some 0 then .ok ()
       else .error ("Pipeline failed with code " ++ toString (s.getD (-1)))) := by
  unfold handle_pipe_outcome pipeWaitLoop
  simp [pipeWaitLoop_keeps]

/-- C2 counterexample (two-stage variant): in the commands/symbols.rs
`handle_pipe`, a LEFT stage exiting 1 while the last stage exits 0 yields
the failure "Left command failed with code 1", not the success that the
last stage's status dictates: an earlier stage's non-zero exit does change
the outcome in this variant. -/
theorem handle_pipe2_left_failure_counterexample :
    handle_pipe_outcome2 (some 1) (some 0) =
        .error ("Left command failed with code 1") ∧
      handle_pipe_outcome2 (some 1) (some 0) ≠ .ok () := by
  have h1 : handle_pipe_outcome2 (some 1) (some 0) =
      .error ("Left command failed with code 1") := rfl
  refine ⟨h1, ?_⟩
  rw [h1]
  intro h
  exact Except.noConfusion h

/-- A chunk containing no opening brace leaves the brace state closed and
is appended literally. -/
theorem foldl_braceStep_nobrace (chunk : List Char) (h : '{' ∉ chunk)
    (result : List (List Char)) (stack : List (List (List Char))) :
    chunk.foldl braceStep (result, stack, false) =
      (result.map fun s => s ++ chunk, stack, false) := by
  induction chunk generalizing result with
  | nil => simp
  | cons c cs ih =>
    have hc : c ≠ '{' := fun e => h (by simp [e])
    have hcs : '{' ∉ cs := fun e => h (by simp [e])
    simp only [List.foldl_cons]
    rw [show braceStep (result, stack, false) c =
        (result.map fun s => s ++ [c], stack, false) from by simp [braceStep, hc]]
    rw [ih hcs]
    simp [List.map_map, Function.comp, List.append_assoc]

/-- Brace expansion is the identity on a token with no opening brace. -/
theorem expand_braces_no_brace (token : List Char) (h : '{' ∉ token) :
    expand_braces token = [token] := by
  unfold expand_braces
  rw [foldl_braceStep_nobrace token h [[]] []]
  simp

/-- Wildcard expansion is the identity on a token with no `*`. -/
theorem expand_wildcard_no_star (globFS : List Char → List (List Char))
    (token : List Char) (h : '*' ∉ token) :
    expand_wildcard globFS token = [token] := by
  unfold expand_wildcard
  rw [if_pos]
  simpa using h

/-- The symbol-separating loop keeps a token with no symbol characters in
one piece. -/
theorem splitSymbolsAux_nosym (rest : List Char)
    (h : ∀ c ∈ rest, c ≠ ';' ∧ c ≠ '|' ∧ c ≠ '&' ∧ c ≠ '<' ∧ c ≠ '>') :
    ∀ cur, splitSymbolsAux rest cur =
      if cur ++ rest = [] then [] else [cur ++ rest] := by
  induction rest with
  | nil =>
    intro cur
    cases cur <;> simp [splitSymbolsAux]
  | cons c cs ih =>
    intro cur
    have hc := h c (by simp)
    have hcs : ∀ x ∈ cs, x ≠ ';' ∧ x ≠ '|' ∧ x ≠ '&' ∧ x ≠ '<' ∧ x ≠ '>' :=
      fun x hx => h x (by simp [hx])
    simp only [splitSymbolsAux]
    rw [if_neg (by simp [hc.1, hc.2.1, hc.2.2.1, hc.2.2.2.1, hc.2.2.2.2])]
    rw [ih hcs (cur ++ [c])]
    simp [List.append_assoc]

/-- Tilde expansion is the identity on a token not starting with `~`. -/
theorem expand_tilde_no_tilde (home : Option (List Char)) (token : List Char)
    (h : token.head? ≠ some '~') : expand_tilde home token = token := by
  simp [expand_tilde, h]

/-- C8 counterexample: in the b_symbols.rs variant, a token containing an
attached symbol character — here `a;b`, which contains none of `$ ~ { *` —
is SPLIT into three tokens `a`, `;`, `b` by the symbol-separating loop, so
expansion is not the identity on it. -/
theorem expand_tokens_symbol_split_counterexample :
    BSymbols.expand_tokens none (fun p => [p]) [['a', ';', 'b']] =
        [['a'], [';'], ['b']] ∧
      BSymbols.expand_tokens none (fun p => [p]) [['a', ';', 'b']] ≠
        [['a', ';', 'b']] := by
  constructor <;> decide

/-- C8 amended: token expansion is the identity on a single token in the
commands/symbols.rs variant whenever the token contains no `{` and no `*`
(that variant performs no `$`, `~` or symbol handling at all); in the
b_symbols.rs variant the token must additionally be nonempty, not start
with `~`, and contain none of the separator characters `; | & < >`, which
are otherwise split off as separate tokens. -/
theorem expand_tokens_identity_amended (home : Option (List Char))
    (globFS : List Char → List (List Char)) (token : List Char)
    (hbrace : '{' ∉ token) (hstar : '*' ∉ token) :
    CmdSymbols.expand_tokens globFS [token] = [token] ∧
      (token ≠ [] → token.head? ≠ some '~' →
        (∀ c ∈ token, c ≠ ';' ∧ c ≠ '|' ∧ c ≠ '&' ∧ c ≠ '<' ∧ c ≠ '>') →
        BSymbols.expand_tokens home globFS [token] = [token]) := by
  constructor
  · unfold CmdSymbols.expand_tokens
    simp [expand_braces_no_brace token hbrace,
      expand_wildcard_no_star globFS token hstar]
  · intro hne htl hsym
    have hs : splitSymbols token = [token] := by
      unfold splitSymbols
      rw [splitSymbolsAux_nosym token hsym []]
      simp [hne]
    unfold BSymbols.expand_tokens
    simp [hs, expand_tilde_no_tilde home token htl,
      expand_braces_no_brace token hbrace,
      expand_wildcard_no_star globFS token hstar]

/-- C8 witness: the amended theorem on the token `hello`. -/
theorem expand_tokens_identity_witness :
    CmdSymbols.expand_tokens (fun p => [p]) [String.toList "hello"] =
        [String.toList "hello"] ∧
      BSymbols.expand_tokens none (fun p => [p]) [String.toList "hello"] =
        [String.toList "hello"] := by
  have h := expand_tokens_identity_amended none (fun p => [p])
    (String.toList "hello") (by decide) (by decide)
  exact ⟨h.1, h.2 (by decide) (by decide) (by decide)⟩

/-- Invariant of the `expand_aliases` loop: the final depth lies between
the entry depth and `MAX_DEPTH` (when the entry depth does), the result is
the line after exactly the performed number of substitutions, and a stop
below the bound means no further substitution applies. -/
theorem expandAliasesLoop_spec (lookup : List Char → Option (List Char))
    (s : List Char) (depth : Nat) :
    depth ≤ (expandAliasesLoop lookup s depth).2 ∧
      (depth ≤ MAX_DEPTH → (expandAliasesLoop lookup s depth).2 ≤ MAX_DEPTH) ∧
      (expandAliasesLoop lookup s depth).1 =
        iterSubst lookup ((expandAliasesLoop lookup s depth).2 - depth) s ∧
      ((expandAliasesLoop lookup s depth).2 < MAX_DEPTH →
        substStep lookup (expandAliasesLoop lookup s depth).1 = none) := by
  induction s, depth using expandAliasesLoop.induct lookup with
  | case1 result depth hlt r hstep ih =>
    have heq : expandAliasesLoop lookup result depth =
        expandAliasesLoop lookup r (depth + 1) := by
      rw [expandAliasesLoop.eq_def]
      simp [hlt, hstep]
    rw [heq]
    obtain ⟨ih1, ih2, ih3, ih4⟩ := ih
    refine ⟨by omega, fun _ => ih2 (by omega), ?_, ih4⟩
    have hd : (expandAliasesLoop lookup r (depth + 1)).2 - depth =
        ((expandAliasesLoop lookup r (depth + 1)).2 - (depth + 1)) + 1 := by
      omega
    rw [hd, iterSubst]
    simp only [hstep]
    exact ih3
  | case2 result depth hlt hstep =>
    have heq : expandAliasesLoop lookup result depth = (result, depth) := by
      rw [expandAliasesLoop.eq_def]
      simp [hlt, hstep]
    rw [heq]
    exact ⟨Nat.le_refl _, fun h => h, by simp [iterSubst], fun _ => hstep⟩
  | case3 result depth hge =>
    have heq : expandAliasesLoop lookup result depth = (result, depth) := by
      rw [expandAliasesLoop.eq_def]
      simp [hge]
    rw [heq]
    exact ⟨Nat.le_refl _, fun h => h, by simp [iterSubst], fun h => absurd h hge⟩

/-- C9: `expand_aliases` terminates on every input line and alias table —
its loop is the total function `expandAliasesLoop` — performing at most
`MAX_DEPTH = 10` successive alias substitutions: the returned line is the
input after exactly the performed number of substitutions; when fewer than
10 were performed the loop stopped because no alias applies to the current
first word; and the depth-limit warning is logged exactly when the bound
was reached, in which case the current line is returned without further
expansion. -/
theorem expand_aliases_bounded (lookup : List Char → Option (List Char))
    (input : List Char) :
    (expand_aliases lookup input).2.1 ≤ MAX_DEPTH ∧
      (expand_aliases lookup input).1 =
        iterSubst lookup (expand_aliases lookup input).2.1 input ∧
      ((expand_aliases lookup input).2.1 < MAX_DEPTH →
        substStep lookup (expand_aliases lookup input).1 = none) ∧
      ((expand_aliases lookup input).2.2 = true ↔
        (expand_aliases lookup input).2.1 = MAX_DEPTH) := by
  obtain ⟨h1, h2, h3, h4⟩ := expandAliasesLoop_spec lookup input 0
  have hb : (expandAliasesLoop lookup input 0).2 ≤ MAX_DEPTH := h2 (by simp)
  unfold expand_aliases
  rcases heq : expandAliasesLoop lookup input 0 with ⟨r, d⟩
  rw [heq] at h3 h4 hb
  simp only [heq, Nat.sub_zero] at h3
  refine ⟨hb, h3, h4, ?_⟩
  simp only [decide_eq_true_eq]
  omega

/-- C10 counterexample: on the token list `["&"]` the `&` IS the final
token and is the first special symbol, yet `handle_symbols` does not
return success: the preceding command is empty, so `handle_background`
returns the error "Missing command" (for any pipe/redirect/and/semicolon
oracles, i.e. with no command executed). -/
theorem handle_symbols_bare_background_counterexample :
    handle_symbols (fun _ _ => .ok ()) (fun _ _ _ => .ok ()) (fun _ _ => .ok ())
        (fun _ _ => .ok ()) ["&"] = .error "Missing command" ∧
      handle_symbols (fun _ _ => .ok ()) (fun _ _ _ => .ok ()) (fun _ _ => .ok ())
        (fun _ _ => .ok ()) ["&"] ≠ .ok () := by
  have h1 : handle_symbols (fun _ _ => .ok ()) (fun _ _ _ => .ok ())
      (fun _ _ => .ok ()) (fun _ _ => .ok ()) ["&"] = .error "Missing command" := by
    rw [handle_symbols.eq_def]
    rfl
  refine ⟨h1, ?_⟩
  rw [h1]
  intro h
  exact Except.noConfusion h

/-- C10 amended: when the first special symbol among the tokens is `&`: if
it is not the final token, `handle_symbols` returns the error "Background
symbol must be at the end" — for every choice of the effectful oracles, so
no command is executed; if it is the final token, the preceding tokens are
passed to `handle_background`, which returns success when at least one
token precedes the `&` and the error "Missing command" when none does. -/
theorem handle_symbols_background_amended
    (hPipe : List String → List String → Except String Unit)
    (hRedir : SymbolType → List String → String → Except String Unit)
    (hAnd hSemi : List String → List String → Except String Unit)
    (tokens : List String) (pos : Nat)
    (hfind : firstSymbol tokens = some (pos, .background)) :
    (pos ≠ tokens.length - 1 →
      handle_symbols hPipe hRedir hAnd hSemi tokens =
        .error "Background symbol must be at the end") ∧
      (pos = tokens.length - 1 →
        handle_symbols hPipe hRedir hAnd hSemi tokens =
          (if (tokens.take pos).isEmpty then .error "Missing command"
           else .ok ())) := by
  constructor
  · intro h
    rw [handle_symbols.eq_def]
    simp [hfind, h]
  · intro h
    rw [handle_symbols.eq_def]
    simp [hfind, h, handle_background]

/-- C10 witness: the amended theorem on `["sleep", "5", "&"]`, whose `&`
is final with a nonempty command before it. -/
theorem handle_symbols_background_amended_witness :
    firstSymbol ["sleep", "5", "&"] = some (2, .background) ∧
      handle_symbols (fun _ _ => .ok ()) (fun _ _ _ => .ok ()) (fun _ _ => .ok ())
        (fun _ _ => .ok ()) ["sleep", "5", "&"] = .ok () := by
  refine ⟨by rfl, ?_⟩
  have h := (handle_symbols_background_amended (fun _ _ => .ok ())
    (fun _ _ _ => .ok ()) (fun _ _ => .ok ()) (fun _ _ => .ok ())
    ["sleep", "5", "&"] 2 (by rfl)).2 (by rfl)
  simpa using h

/-- C7: for every pattern `p` and filename `n`, `matches_pattern p n`
returns true if and only if `n` can be obtained from `p` by replacing each
`*` with some (possibly empty) run of characters and matching every other
character of `p` literally — the greedy-backtracking matcher of
src/b_symbols.rs lines 234-265 decides exactly the glob language of `p`. -/
theorem matches_pattern_iff_globLang (p n : List Char) :
    matches_pattern p n = true ↔ GlobLang p n := by
  unfold matches_pattern
  rw [matchLoop_globMatch p n none (by rintro t u h; cases h)]
  exact globMatch_iff_globLang p n

end Shesh
